import Mathlib

/-!
Shallow embedding of `count_event_multiplicity.py`.

The program thresholds a 2-D grayscale image (`image >= threshold_value`),
labels the 8-connected regions of the resulting boolean mask, and returns the
list of region sizes ("multiplicities"); a batch driver runs this over the
`*.tiff` files of a folder, and a statistics step returns the mean and the
standard error of the mean of all multiplicities, flattened across images.

External capabilities are modelled as the spec describes them:
`skimage.measure.label(·, connectivity=2)` + `regionprops` areas become an
executable merge-based 8-connected-component partition of the foreground
cells, `numpy` mean/std become exact rational formulas (the SEM is carried by
its square, since the square root leaves the rationals), `glob` becomes a
suffix filter over a directory listing, and `tifffile.imread` is abstracted by
passing the already-loaded array (shape + row-major data) to the function.
-/

namespace CountEventMultiplicity

/-- A position (row index, column index) in a 2-D grid. -/
abbrev Pos := ℕ × ℕ

/-- Line 26 of the source: `binary_image = image >= threshold_value`.
A cell of the mask is true exactly when its intensity is `>=` the threshold. -/
def binary_image (image : List (List Int)) (threshold_value : Int) : List (List Bool) :=
  image.map (fun row => row.map (fun v => decide (threshold_value ≤ v)))

/-- Positions of the true cells of one mask row, scanning columns from `j`. -/
def rowTrue (i : ℕ) : ℕ → List Bool → List Pos
  | _, [] => []
  | j, b :: rest => if b then (i, j) :: rowTrue i (j + 1) rest else rowTrue i (j + 1) rest

/-- Positions of the true cells of a mask, rows scanned from index `i`. -/
def gridTrue : ℕ → List (List Bool) → List Pos
  | _, [] => []
  | i, row :: rest => rowTrue i 0 row ++ gridTrue (i + 1) rest

/-- Eight-connectivity (`connectivity=2` in skimage): two distinct cells are
adjacent when both their row and column indices differ by at most one, so
edge- and corner-contact both count. -/
def adjacent (p q : Pos) : Bool :=
  decide (p ≠ q) && decide (max p.1 q.1 - min p.1 q.1 ≤ 1)
    && decide (max p.2 q.2 - min p.2 q.2 ≤ 1)

/-- Whether some cell of `g` is adjacent to some cell of `h`. -/
def groupsAdjacent (g h : List Pos) : Bool :=
  g.any (fun p => h.any (fun q => adjacent p q))

/-- Insert a group of cells into a list of groups, absorbing every group it
touches; the merged group ends up last, untouched groups keep their order. -/
def insertGroup : List Pos → List (List Pos) → List (List Pos)
  | g, [] => [g]
  | g, h :: rest =>
    if groupsAdjacent g h then insertGroup (g ++ h) rest else h :: insertGroup g rest

/-- Modelled from the spec: `skimage.measure.label(binary_image, connectivity=2)`
is not part of the repository; per the spec it partitions the true cells of the
mask into maximal 8-connected groups. Each cell is inserted as a singleton and
merged with every group it touches. -/
def components (cells : List Pos) : List (List Pos) :=
  cells.foldr (fun p gs => insertGroup [p] gs) []

/-- Lines 29-32 of the source: label the mask with `connectivity=2` and take
`region.area` for each region of `regionprops` (the size of each group; the
spec states the order of the returned list is not semantically meaningful). -/
def label_areas (mask : List (List Bool)) : List ℕ :=
  (components (gridTrue 0 mask)).map List.length

/-- Lines 26-32 of `count_multiplicity`, after the shape check: threshold the
grid, label the 8-connected regions, return their sizes. The spec names this
contract `count_regions(grid, threshold)`. -/
def count_regions (image : List (List Int)) (threshold_value : Int) : List ℕ :=
  label_areas (binary_image image threshold_value)

/-- Number of cells of the grid whose intensity is `>=` the threshold. -/
def foregroundCount (image : List (List Int)) (threshold_value : Int) : ℕ :=
  (image.map (fun row => row.countP (fun v => decide (threshold_value ≤ v)))).sum

/-- An n-dimensional numpy array as `tifffile.imread` returns it: a shape and
the row-major data, whose length is the product of the shape. -/
structure NpArray where
  shape : List ℕ
  flat : List Int
  size_eq : flat.length = shape.prod

/-- `image.ndim`: the number of dimensions. -/
def NpArray.ndim (a : NpArray) : ℕ := a.shape.length

/-- Split a row-major buffer into `h` rows of width `w`. -/
def toRows (w : ℕ) : ℕ → List Int → List (List Int)
  | 0, _ => []
  | h + 1, l => l.take w :: toRows w h (l.drop w)

/-- The 2-D contents of an array of shape `[h, w]`. -/
def NpArray.toGrid (a : NpArray) : List (List Int) :=
  match a.shape with
  | [h, w] => toRows w h a.flat
  | _ => []

/-- The `ValueError` of line 23 (the spec calls it `ShapeError`) carries the
offending shape. -/
abbrev ShapeErr := List ℕ

/-- Lines 22-34 of the source, with `tiff.imread` abstracted to the loaded
array: raise `ShapeError` when the data is not exactly 2-dimensional, before
any thresholding; otherwise threshold, label and return the region sizes. -/
def count_multiplicity (image : NpArray) (threshold_value : Int) :
    Except ShapeErr (List ℕ) :=
  if image.ndim ≠ 2 then Except.error image.shape
  else Except.ok (count_regions image.toGrid threshold_value)

/-- A file name, as its list of characters (the kernel does not reduce the
operations of the builtin string type, so names are carried by their
character lists). -/
abbrev FileName := List Char

/-- The characters of the extension suffix of the glob pattern `*.tiff`. -/
def tiffSuffix : FileName := ['.', 't', 'i', 'f', 'f']

/-- Modelled from the spec: `glob(os.path.join(folder_path, "*.tiff"))` is not
part of the repository; per the spec it keeps the names of the directory
listing that end in `.tiff` (case-sensitive, no `.tif` variant). -/
def globTiff (listing : List FileName) : List FileName :=
  listing.filter (fun name => tiffSuffix.isSuffixOf name)

/-- The notice printed by line 51 when no TIFF file is found. -/
def noTiffNotice (folder_path : FileName) : FileName :=
  "No TIFF files found in folder: ".data ++ folder_path

/-- Lines 48-56 of the source, with the filesystem abstracted to the folder
listing and a loading function: glob `*.tiff`; when nothing matches, print the
notice and return `[]`; otherwise process every matching file, propagating a
`ShapeError`. The first component collects the printed lines. -/
def process_images_in_folder (folder_path : FileName) (listing : List FileName)
    (load : FileName → NpArray) (threshold_value : Int) :
    List FileName × Except ShapeErr (List (List ℕ)) :=
  let image_paths := globTiff listing
  if image_paths.isEmpty then
    ([noTiffNotice folder_path], Except.ok [])
  else
    ([], image_paths.mapM (fun p => count_multiplicity (load p) threshold_value))

/-- `np.mean(xs)`: the sum divided by the count. -/
def np_mean (xs : List ℚ) : ℚ := xs.sum / (xs.length : ℚ)

/-- The square of `np.std(xs, ddof=1)`: the sum of squared deviations from the
mean, divided by `count - 1` (the sample convention of line 76). -/
def np_var_ddof1 (xs : List ℚ) : ℚ :=
  (xs.map (fun x => (x - np_mean xs) ^ 2)).sum / ((xs.length : ℚ) - 1)

/-- Lines 70-85 of the source. The pair is `(avg_multiplicity, sem^2)`: the
source returns `sem = std_dev / sqrt(n)`, and since the square root leaves ℚ
the embedding carries the SEM by its square `std_dev^2 / n`, which determines
the (nonnegative) SEM exactly. The empty branch returns `(0, 0)`. -/
def average_multiplicity_with_error (all_multiplicities : List (List ℚ)) : ℚ × ℚ :=
  let flattened := all_multiplicities.flatten
  if flattened.isEmpty then (0, 0)
  else (np_mean flattened, np_var_ddof1 flattened / (flattened.length : ℚ))

/-- Spec wording, for comparison: the arithmetic mean of all values. -/
def spec_arith_mean (xs : List ℚ) : ℚ := xs.sum / (xs.length : ℚ)

/-- Spec wording, for comparison: the sample variance, with divisor
`count - 1`. -/
def spec_sample_variance (xs : List ℚ) : ℚ :=
  (xs.map (fun x => (x - spec_arith_mean xs) ^ 2)).sum / ((xs.length : ℚ) - 1)

/-! Lemmas on the component partition. -/

/-- Two groups of cells are non-adjacent when no cell of one touches a cell of
the other. -/
def NonAdj (A B : List Pos) : Prop :=
  ∀ p ∈ A, ∀ q ∈ B, adjacent p q = false

theorem adjacent_symm (p q : Pos) : adjacent p q = adjacent q p := by
  by_cases h : p = q
  · simp [adjacent, h]
  · have h2 : q ≠ p := fun e => h e.symm
    simp [adjacent, h, h2, Nat.max_comm, Nat.min_comm]

theorem nonAdj_symmetric : Symmetric NonAdj := by
  intro A B hAB q hq p hp
  rw [adjacent_symm]
  exact hAB p hp q hq

theorem groupsAdjacent_eq_false (g h : List Pos) :
    groupsAdjacent g h = false ↔ ∀ p ∈ g, ∀ q ∈ h, adjacent p q = false := by
  simp [groupsAdjacent]

theorem insertGroup_cons_true {g h : List Pos} {rest : List (List Pos)}
    (hadj : groupsAdjacent g h = true) :
    insertGroup g (h :: rest) = insertGroup (g ++ h) rest := by
  simp [insertGroup, hadj]

theorem insertGroup_cons_false {g h : List Pos} {rest : List (List Pos)}
    (hadj : groupsAdjacent g h = false) :
    insertGroup g (h :: rest) = h :: insertGroup g rest := by
  simp [insertGroup, hadj]

theorem insertGroup_flatten_perm (gs : List (List Pos)) (g : List Pos) :
    (insertGroup g gs).flatten.Perm (g ++ gs.flatten) := by
  induction gs generalizing g with
  | nil => simp [insertGroup]
  | cons h rest ih =>
    by_cases hadj : groupsAdjacent g h
    · simpa [insertGroup, hadj, List.append_assoc] using ih (g ++ h)
    · have h1 : (h ++ (insertGroup g rest).flatten).Perm (h ++ (g ++ rest.flatten)) :=
        (ih g).append_left h
      have h2 : (h ++ (g ++ rest.flatten)).Perm (g ++ (h ++ rest.flatten)) := by
        rw [← List.append_assoc, ← List.append_assoc]
        exact List.perm_append_comm.append_right _
      simpa [insertGroup, hadj] using h1.trans h2

theorem insertGroup_nonempty (gs : List (List Pos)) (g : List Pos) (hg : g ≠ [])
    (hgs : ∀ h ∈ gs, h ≠ []) : ∀ G ∈ insertGroup g gs, G ≠ [] := by
  induction gs generalizing g with
  | nil => simpa [insertGroup] using hg
  | cons h rest ih =>
    cases hadj : groupsAdjacent g h with
    | true =>
      rw [insertGroup_cons_true hadj]
      exact ih (g ++ h) (by simp [hg]) (fun x hx => hgs x (List.mem_cons_of_mem h hx))
    | false =>
      rw [insertGroup_cons_false hadj]
      intro G hG
      rcases List.mem_cons.mp hG with rfl | hG2
      · exact hgs G (List.mem_cons_self G rest)
      · exact ih g hg (fun x hx => hgs x (List.mem_cons_of_mem h hx)) G hG2

theorem insertGroup_pairwise (gs : List (List Pos)) (hgs : List.Pairwise NonAdj gs)
    (g : List Pos) : List.Pairwise NonAdj (insertGroup g gs) := by
  induction gs generalizing g with
  | nil => simp [insertGroup, List.Pairwise]
  | cons h rest ih =>
    rw [List.pairwise_cons] at hgs
    cases hadj : groupsAdjacent g h with
    | true =>
      rw [insertGroup_cons_true hadj]
      exact ih hgs.2 (g ++ h)
    | false =>
      rw [insertGroup_cons_false hadj]
      rw [List.pairwise_cons]
      refine ⟨?_, ih hgs.2 g⟩
      intro G hG p hp q hq
      have hqmem : q ∈ (insertGroup g rest).flatten :=
        List.mem_flatten.mpr ⟨G, hG, hq⟩
      have hqor : q ∈ g ∨ q ∈ rest.flatten := by
        have := (insertGroup_flatten_perm rest g).mem_iff.mp hqmem
        simpa using this
      rcases hqor with hqg | hqr
      · have hfalse := (groupsAdjacent_eq_false g h).mp hadj q hqg p hp
        rw [adjacent_symm] at hfalse
        exact hfalse
      · rcases List.mem_flatten.mp hqr with ⟨r, hr, hqr2⟩
        exact hgs.1 r hr p hp q hqr2

theorem components_flatten_perm (cells : List Pos) :
    (components cells).flatten.Perm cells := by
  induction cells with
  | nil => simp [components]
  | cons p rest ih =>
    have step : components (p :: rest) = insertGroup [p] (components rest) := rfl
    rw [step]
    exact (insertGroup_flatten_perm (components rest) [p]).trans (ih.cons p)

theorem components_nonempty (cells : List Pos) :
    ∀ G ∈ components cells, G ≠ [] := by
  induction cells with
  | nil => simp [components]
  | cons p rest ih =>
    have step : components (p :: rest) = insertGroup [p] (components rest) := rfl
    rw [step]
    exact insertGroup_nonempty (components rest) [p] (by simp) ih

theorem components_pairwise (cells : List Pos) :
    List.Pairwise NonAdj (components cells) := by
  induction cells with
  | nil => simp [components, List.Pairwise]
  | cons p rest ih =>
    have step : components (p :: rest) = insertGroup [p] (components rest) := rfl
    rw [step]
    exact insertGroup_pairwise (components rest) ih [p]

theorem mem_components_of_mem (cells : List Pos) (p : Pos) (hp : p ∈ cells) :
    ∃ G ∈ components cells, p ∈ G := by
  have : p ∈ (components cells).flatten :=
    (components_flatten_perm cells).mem_iff.mpr hp
  exact List.mem_flatten.mp this

theorem adjacent_same_component (cells : List Pos) (p q : Pos)
    (hp : p ∈ cells) (hq : q ∈ cells) (hadj : adjacent p q = true) :
    ∃ G ∈ components cells, p ∈ G ∧ q ∈ G := by
  rcases mem_components_of_mem cells p hp with ⟨G1, hG1, hpG1⟩
  rcases mem_components_of_mem cells q hq with ⟨G2, hG2, hqG2⟩
  by_cases hGeq : G1 = G2
  · exact ⟨G1, hG1, hpG1, hGeq ▸ hqG2⟩
  · exfalso
    have hna : NonAdj G1 G2 :=
      (components_pairwise cells).forall nonAdj_symmetric hG1 hG2 hGeq
    have := hna p hpG1 q hqG2
    rw [hadj] at this
    exact Bool.true_eq_false.mp this

/-! Lemmas on cell counting. -/

theorem rowTrue_length (i : ℕ) (row : List Bool) :
    ∀ j, (rowTrue i j row).length = row.countP id := by
  induction row with
  | nil => intro j; simp [rowTrue]
  | cons b rest ih =>
    intro j
    cases b <;> simp [rowTrue, ih, List.countP_cons]

theorem gridTrue_length (mask : List (List Bool)) :
    ∀ i, (gridTrue i mask).length = (mask.map (fun row => row.countP id)).sum := by
  induction mask with
  | nil => intro i; simp [gridTrue]
  | cons row rest ih =>
    intro i
    simp [gridTrue, rowTrue_length, ih]

theorem gridTrue_binary_length (image : List (List Int)) (threshold_value : Int) :
    (gridTrue 0 (binary_image image threshold_value)).length =
      foregroundCount image threshold_value := by
  rw [gridTrue_length]
  unfold binary_image foregroundCount
  rw [List.map_map]
  congr 1
  apply List.map_congr_left
  intro row _
  rw [Function.comp_apply, List.countP_map]
  rfl

theorem label_areas_sum (mask : List (List Bool)) :
    (label_areas mask).sum = (gridTrue 0 mask).length := by
  unfold label_areas
  rw [← List.length_flatten]
  exact ((components_flatten_perm (gridTrue 0 mask)).length_eq)

theorem count_regions_sum (image : List (List Int)) (threshold_value : Int) :
    (count_regions image threshold_value).sum = foregroundCount image threshold_value := by
  unfold count_regions
  rw [label_areas_sum, gridTrue_binary_length]

theorem rowTrue_eq_nil (i : ℕ) (row : List Bool) (h : ∀ b ∈ row, b = false) :
    ∀ j, rowTrue i j row = [] := by
  induction row with
  | nil => intro j; simp [rowTrue]
  | cons b rest ih =>
    intro j
    have hb : b = false := h b (List.mem_cons_self b rest)
    rw [hb]
    have := ih (fun x hx => h x (List.mem_cons_of_mem b hx)) (j + 1)
    simpa [rowTrue] using this

theorem gridTrue_eq_nil (mask : List (List Bool))
    (h : ∀ row ∈ mask, ∀ b ∈ row, b = false) : ∀ i, gridTrue i mask = [] := by
  induction mask with
  | nil => intro i; simp [gridTrue]
  | cons row rest ih =>
    intro i
    simp only [gridTrue, List.append_eq_nil]
    constructor
    · exact rowTrue_eq_nil i row (h row (List.mem_cons_self row rest)) 0
    · exact ih (fun r hr => h r (List.mem_cons_of_mem row hr)) (i + 1)

theorem count_regions_of_no_foreground (image : List (List Int)) (threshold_value : Int)
    (h : ∀ row ∈ image, ∀ v ∈ row, v < threshold_value) :
    count_regions image threshold_value = [] := by
  unfold count_regions label_areas
  have hmask : gridTrue 0 (binary_image image threshold_value) = [] := by
    apply gridTrue_eq_nil
    intro row hrow b hb
    rcases List.mem_map.mp hrow with ⟨r, hr, rfl⟩
    rcases List.mem_map.mp hb with ⟨v, hv, rfl⟩
    simpa using not_le.mpr (h r hr v hv)
  rw [hmask]
  rfl

theorem length_le_sum_of_pos (l : List ℕ) (h : ∀ x ∈ l, 1 ≤ x) :
    l.length ≤ l.sum := by
  induction l with
  | nil => simp
  | cons x rest ih =>
    simp only [List.length_cons, List.sum_cons]
    have h1 : 1 ≤ x := h x (List.mem_cons_self x rest)
    have h2 : rest.length ≤ rest.sum := ih (fun y hy => h y (List.mem_cons_of_mem x hy))
    omega

theorem count_regions_pos (image : List (List Int)) (threshold_value : Int) :
    ∀ m ∈ count_regions image threshold_value, 0 < m := by
  intro m hm
  rcases List.mem_map.mp hm with ⟨G, hG, rfl⟩
  have := components_nonempty (gridTrue 0 (binary_image image threshold_value)) G hG
  exact List.length_pos.mpr this

/-! Lemmas on the statistics. -/

theorem np_mean_perm {xs ys : List ℚ} (h : xs.Perm ys) : np_mean xs = np_mean ys := by
  unfold np_mean
  rw [h.sum_eq, h.length_eq]

theorem np_var_ddof1_perm {xs ys : List ℚ} (h : xs.Perm ys) :
    np_var_ddof1 xs = np_var_ddof1 ys := by
  unfold np_var_ddof1
  rw [np_mean_perm h, (h.map _).sum_eq, h.length_eq]

theorem amwe_flatten_perm (xss yss : List (List ℚ))
    (h : xss.flatten.Perm yss.flatten) :
    average_multiplicity_with_error xss = average_multiplicity_with_error yss := by
  unfold average_multiplicity_with_error
  by_cases hnil : xss.flatten = []
  · have hnil2 : yss.flatten = [] := by
      have hlen := h.length_eq
      rw [hnil] at hlen
      exact List.length_eq_zero.mp hlen.symm
    simp [hnil, hnil2]
  · have hnil2 : yss.flatten ≠ [] := fun e => hnil (by rw [e] at h; exact h.eq_nil)
    simp [List.isEmpty_iff, hnil, hnil2, np_mean_perm h, np_var_ddof1_perm h, h.length_eq]

/-! Concrete inputs used by witnesses. -/

/-- A 3-D volumetric stack of shape (5, 100, 100), as in the shape-rejection
scenario of the spec. -/
def stack3d : NpArray :=
  ⟨[5, 100, 100], List.replicate 50000 0, by rw [List.length_replicate]; rfl⟩

/-- A well-formed 1x1 grayscale image. -/
def sample2d : NpArray := ⟨[1, 1], [0], rfl⟩

/-- A loading function for the folder witness; never actually applied on the
empty-match path. -/
def dummyLoad : FileName → NpArray := fun _ => ⟨[0], [], rfl⟩

/-! The claims. -/

/-- C1: count_multiplicity classifies a pixel as foreground exactly when its
intensity is greater than or equal to the threshold (the comparison of line 26
is inclusive): the mask cell at (i, j) holds decide (threshold <= v); a pixel
whose intensity equals the threshold is in the thresholded mask, and one whose
intensity is threshold - 1 is not. -/
theorem threshold_is_inclusive (image : List (List Int)) (threshold_value : Int)
    (i j : ℕ) (row : List Int) (v : Int)
    (hrow : image[i]? = some row) (hv : row[j]? = some v) :
    ∃ mrow, (binary_image image threshold_value)[i]? = some mrow ∧
      mrow[j]? = some (decide (threshold_value ≤ v)) ∧
      (v = threshold_value → mrow[j]? = some true) ∧
      (v = threshold_value - 1 → mrow[j]? = some false) := by
  refine ⟨row.map (fun x => decide (threshold_value ≤ x)), ?_, ?_, ?_, ?_⟩
  · simp [binary_image, List.getElem?_map, hrow]
  · simp [List.getElem?_map, hv]
  · intro hvt
    subst hvt
    simp [List.getElem?_map, hv]
  · intro hvt
    subst hvt
    have hlt : ¬ (threshold_value ≤ threshold_value - 1) := by omega
    simp [List.getElem?_map, hv, hlt]

theorem threshold_is_inclusive_witness :
    (∃ mrow, (binary_image [[5, 4]] 5)[0]? = some mrow ∧
      mrow[0]? = some (decide ((5 : Int) ≤ 5)) ∧
      ((5 : Int) = 5 → mrow[0]? = some true) ∧
      ((5 : Int) = 5 - 1 → mrow[0]? = some false)) ∧
    (∃ mrow, (binary_image [[5, 4]] 5)[0]? = some mrow ∧
      mrow[1]? = some (decide ((5 : Int) ≤ 4)) ∧
      ((4 : Int) = 5 → mrow[1]? = some true) ∧
      ((4 : Int) = 5 - 1 → mrow[1]? = some false)) :=
  ⟨threshold_is_inclusive [[5, 4]] 5 0 0 [5, 4] 5 rfl rfl,
    threshold_is_inclusive [[5, 4]] 5 0 1 [5, 4] 4 rfl rfl⟩

/-- C2: regions are formed under 8-connectivity: two foreground pixels that
touch only at a corner (row and column indices both differ by exactly one)
belong to one region of the partition, and on the 3x3 grid whose only
foreground pixels at threshold 1 are (0,0) and (1,1), count_regions returns
the single-element list [2], not [1, 1]. -/
theorem eight_connectivity_merges_corner_neighbors :
    (∀ (image : List (List Int)) (threshold_value : Int) (p q : Pos),
        p ∈ gridTrue 0 (binary_image image threshold_value) →
        q ∈ gridTrue 0 (binary_image image threshold_value) →
        (p.1 = q.1 + 1 ∨ q.1 = p.1 + 1) → (p.2 = q.2 + 1 ∨ q.2 = p.2 + 1) →
        ∃ G ∈ components (gridTrue 0 (binary_image image threshold_value)),
          p ∈ G ∧ q ∈ G) ∧
    count_regions [[1, 0, 0], [0, 1, 0], [0, 0, 0]] 1 = [2] := by
  constructor
  · intro image t p q hp hq hrow hcol
    apply adjacent_same_component _ p q hp hq
    have hne : p ≠ q := by
      intro e
      rw [e] at hrow
      omega
    simp only [adjacent, Bool.and_eq_true, decide_eq_true_eq]
    exact ⟨⟨hne, by omega⟩, by omega⟩
  · decide

theorem eight_connectivity_merges_corner_neighbors_witness :
    ((0, 0) : Pos) ∈ gridTrue 0 (binary_image [[1, 0, 0], [0, 1, 0], [0, 0, 0]] 1) ∧
    ((1, 1) : Pos) ∈ gridTrue 0 (binary_image [[1, 0, 0], [0, 1, 0], [0, 0, 0]] 1) ∧
    ∃ G ∈ components (gridTrue 0 (binary_image [[1, 0, 0], [0, 1, 0], [0, 0, 0]] 1)),
      ((0, 0) : Pos) ∈ G ∧ ((1, 1) : Pos) ∈ G :=
  ⟨by decide, by decide,
    eight_connectivity_merges_corner_neighbors.1 [[1, 0, 0], [0, 1, 0], [0, 0, 0]] 1
      (0, 0) (1, 1) (by decide) (by decide) (Or.inr rfl) (Or.inr rfl)⟩

/-- C3: for every grid and threshold, the multiplicities returned by
count_regions sum to the number of cells whose intensity is greater than or
equal to the threshold: the regions exactly partition the foreground pixels. -/
theorem region_sizes_sum_to_foreground_count (image : List (List Int))
    (threshold_value : Int) :
    (count_regions image threshold_value).sum = foregroundCount image threshold_value :=
  count_regions_sum image threshold_value

/-- C4: on a non-empty flattened sequence, the returned mean is the arithmetic
mean of all flattened values and the returned (squared) SEM is the sample
variance (divisor count - 1) divided by the count — the statistics are over
the flattened union across images, not an average of per-image averages. -/
theorem summary_stats_over_flattened_values (all_multiplicities : List (List ℚ))
    (h : all_multiplicities.flatten ≠ []) :
    average_multiplicity_with_error all_multiplicities =
      (spec_arith_mean all_multiplicities.flatten,
        spec_sample_variance all_multiplicities.flatten /
          (all_multiplicities.flatten.length : ℚ)) := by
  simp [average_multiplicity_with_error, h, np_mean, np_var_ddof1, spec_arith_mean,
    spec_sample_variance]

theorem summary_stats_over_flattened_values_witness :
    ([[2, 3], [5]] : List (List ℚ)).flatten ≠ [] ∧
    average_multiplicity_with_error [[2, 3], [5]] = (10 / 3, 7 / 9) := by
  have h := summary_stats_over_flattened_values [[2, 3], [5]] (by decide)
  refine ⟨by decide, ?_⟩
  rw [h]
  norm_num [spec_arith_mean, spec_sample_variance]

/-- C5: a loaded image whose data is not exactly 2-dimensional makes
count_multiplicity fail with the shape error (carrying the shape, before any
thresholding or labeling, for every threshold); 2-D input raises nothing. -/
theorem non_2d_input_rejected (image : NpArray) (threshold_value : Int) :
    (image.ndim ≠ 2 →
      count_multiplicity image threshold_value = Except.error image.shape) ∧
    (image.ndim = 2 →
      ∃ l, count_multiplicity image threshold_value = Except.ok l) := by
  constructor
  · intro h
    simp [count_multiplicity, h]
  · intro h
    refine ⟨count_regions image.toGrid threshold_value, ?_⟩
    simp [count_multiplicity, h]

theorem non_2d_input_rejected_witness :
    count_multiplicity stack3d 1 = Except.error [5, 100, 100] ∧
    ∃ l, count_multiplicity sample2d 1 = Except.ok l :=
  ⟨(non_2d_input_rejected stack3d 1).1 (by decide),
    (non_2d_input_rejected sample2d 1).2 rfl⟩

/-- C6 as stated is false: on the all-zero grid [[0]] with threshold 0 the
single pixel satisfies 0 >= 0, so count_regions returns [1], not the empty
list — the quantification of the claim over every threshold value fails for
thresholds <= 0. -/
theorem all_zero_nonpositive_threshold_counterexample :
    count_regions [[0]] 0 = [1] ∧ count_regions [[0]] 0 ≠ [] := by decide

/-- C6 amended: whenever no pixel meets the threshold the result is the empty
list (not an error); in particular every all-zero grid yields [] for every
positive threshold (such as the default 1). -/
theorem no_foreground_gives_empty_list (image : List (List Int))
    (threshold_value : Int) :
    ((∀ row ∈ image, ∀ v ∈ row, v < threshold_value) →
      count_regions image threshold_value = []) ∧
    ((∀ row ∈ image, ∀ v ∈ row, v = 0) → 1 ≤ threshold_value →
      count_regions image threshold_value = []) := by
  constructor
  · exact count_regions_of_no_foreground image threshold_value
  · intro hz ht
    apply count_regions_of_no_foreground
    intro row hrow v hv
    rw [hz row hrow v hv]
    omega

theorem no_foreground_gives_empty_list_witness :
    count_regions [[0, 0], [0, 0]] 1 = [] :=
  (no_foreground_gives_empty_list [[0, 0], [0, 0]] 1).2 (by decide) (by decide)

/-- C7: whenever the flattened sequence of multiplicities is empty (including
the inputs [[]] and []), the function returns mean 0 and SEM 0 instead of a
division by zero. -/
theorem empty_flattened_gives_zero_stats (all_multiplicities : List (List ℚ))
    (h : all_multiplicities.flatten = []) :
    average_multiplicity_with_error all_multiplicities = (0, 0) := by
  simp [average_multiplicity_with_error, h]

theorem empty_flattened_gives_zero_stats_witness :
    ([([] : List ℚ)] : List (List ℚ)).flatten = [] ∧
    average_multiplicity_with_error [([] : List ℚ)] = (0, 0) ∧
    average_multiplicity_with_error ([] : List (List ℚ)) = (0, 0) :=
  ⟨rfl, empty_flattened_gives_zero_stats [[]] rfl,
    empty_flattened_gives_zero_stats [] rfl⟩

/-- C8: when no name of the folder listing matches *.tiff, the function prints
the no-files notice, returns the empty list, and raises no error. -/
theorem empty_folder_soft_notice (folder_path : FileName) (listing : List FileName)
    (load : FileName → NpArray) (threshold_value : Int)
    (h : globTiff listing = []) :
    process_images_in_folder folder_path listing load threshold_value =
      ([noTiffNotice folder_path], Except.ok []) := by
  simp [process_images_in_folder, h]

theorem empty_folder_soft_notice_witness :
    globTiff [['a', '.', 'p', 'n', 'g'], ['b', '.', 't', 'i', 'f']] = [] ∧
    process_images_in_folder ['d'] [['a', '.', 'p', 'n', 'g'], ['b', '.', 't', 'i', 'f']]
        dummyLoad 1 = ([noTiffNotice ['d']], Except.ok []) :=
  ⟨by decide,
    empty_folder_soft_notice ['d'] [['a', '.', 'p', 'n', 'g'], ['b', '.', 't', 'i', 'f']]
      dummyLoad 1 (by decide)⟩

/-- C9: every returned multiplicity is strictly positive (each region holds at
least one pixel), so the number of regions never exceeds the number of
foreground pixels. -/
theorem multiplicities_positive_and_bounded (image : List (List Int))
    (threshold_value : Int) :
    (∀ m ∈ count_regions image threshold_value, 0 < m) ∧
    (count_regions image threshold_value).length ≤
      foregroundCount image threshold_value := by
  refine ⟨count_regions_pos image threshold_value, ?_⟩
  have hpos : ∀ x ∈ count_regions image threshold_value, 1 ≤ x :=
    fun x hx => count_regions_pos image threshold_value x hx
  calc (count_regions image threshold_value).length
      ≤ (count_regions image threshold_value).sum := length_le_sum_of_pos _ hpos
    _ = foregroundCount image threshold_value := count_regions_sum image threshold_value

theorem multiplicities_positive_and_bounded_witness :
    0 < 2 ∧ (count_regions [[1, 0], [0, 1]] 1).length ≤ foregroundCount [[1, 0], [0, 1]] 1 :=
  ⟨(multiplicities_positive_and_bounded [[1, 0], [0, 1]] 1).1 2 (by decide),
    (multiplicities_positive_and_bounded [[1, 0], [0, 1]] 1).2⟩

/-- C10: the result depends only on the multiset of flattened values — any two
inputs with permutation-equal flattenings (permuted sublists, regrouped
values, inserted empty sublists) give the same pair, and every input gives the
same pair as the single flattened list. -/
theorem stats_depend_only_on_flattened_multiset :
    (∀ xss yss : List (List ℚ), xss.flatten.Perm yss.flatten →
      average_multiplicity_with_error xss = average_multiplicity_with_error yss) ∧
    (∀ xss : List (List ℚ),
      average_multiplicity_with_error xss =
        average_multiplicity_with_error [xss.flatten]) := by
  refine ⟨amwe_flatten_perm, ?_⟩
  intro xss
  apply amwe_flatten_perm
  rw [List.flatten_cons, List.flatten_nil, List.append_nil]

theorem stats_depend_only_on_flattened_multiset_witness :
    ([[2], [3]] : List (List ℚ)).flatten.Perm ([[3, 2]] : List (List ℚ)).flatten ∧
    average_multiplicity_with_error [[2], [3]] =
      average_multiplicity_with_error [[3, 2]] :=
  ⟨by decide, stats_depend_only_on_flattened_multiset.1 [[2], [3]] [[3, 2]] (by decide)⟩

end CountEventMultiplicity
